import Mathlib

/-!
# Verification of the simple-agent orchestration engine

Shallow embedding of the agent orchestration engine of this repository
(`src/w6/simple-agent`): the message/session data model (`types.ts`,
`session/session.ts`), the tool registry (`tool/registry.ts`), the tool
executor (`tool/executor.ts`), the batch and streaming orchestration loops
(`agent/agent.ts`), and the MCP tool adapter (`mcp/client.ts`).

Modelling conventions:
* JavaScript `Map` objects are embedded as association lists that preserve
  insertion order; `Map.set` overwrites in place, `Map.delete` returns whether
  the key was present, exactly as in JS.
* Asynchronous functions that can reject are embedded as total functions into
  `Except String _` (the rejection carries the error's message), or into
  explicit outcome types.  A promise's settlement time is carried as a `Nat`
  so that timeout races and `Promise.all` settlement order can be modelled.
* `JSON.parse` is an external builtin; it is modelled by an abstract success
  predicate `parses : String → Bool`, a successful parse of `s` being
  represented by the value `ArgValue.parsed s` and the raw-string fallback by
  `ArgValue.str s`.
* `generateId()` (a random UUID) is modelled by a threaded `Nat` counter;
  `createdAt : Date` fields (wall-clock time) are omitted: no embedded
  operation reads them.
* The caller-supplied `onEvent` callback returns `void` in TS; its only
  interaction with the loop through its interface is by throwing, so it is
  modelled as `AgentEvent → Option String` (`some msg` models a throw).
-/

set_option maxRecDepth 4000

/-- Untyped structured value (TS `unknown`), as used for tool arguments.
`parsed s` represents the result of a successful `JSON.parse(s)`;
`str s` represents the plain string `s` (the parse-failure fallback). -/
inductive ArgValue where
  | str (s : String)
  | parsed (source : String)
deriving DecidableEq, Repr

/-- `MessageContent` from `types.ts`: tagged union of `text`, `tool_call`
and `tool_result` blocks. -/
inductive MessageContent where
  | text (text : String)
  | toolCall (id : String) (name : String) (arguments : ArgValue)
  | toolResult (toolCallId : String) (result : String) (isError : Bool)
deriving DecidableEq, Repr

/-- `ToolCallContent` from `types.ts` (the `tool_call` variant as a record,
as manipulated by the executor). -/
structure ToolCallContent where
  id : String
  name : String
  arguments : ArgValue
deriving DecidableEq, Repr

/-- `ToolResultContent` from `types.ts`.  The executor always sets the
optional `isError` field, so it is embedded as `Bool`. -/
structure ToolResultContent where
  toolCallId : String
  result : String
  isError : Bool
deriving DecidableEq, Repr

/-- Message role (`"user" | "assistant" | "tool"`). -/
inductive Role where
  | user
  | assistant
  | tool
deriving DecidableEq, Repr

/-- `Message` from `types.ts`.  `createdAt` (wall-clock `Date`) is omitted:
no embedded operation reads it. -/
structure Message where
  id : String
  role : Role
  content : List MessageContent
deriving DecidableEq, Repr

/-- `SessionStatus` from `types.ts`. -/
inductive SessionStatus where
  | idle
  | running
  | completed
  | error
deriving DecidableEq, Repr

/-- `ModelConfig` from `types.ts`. -/
structure ModelConfig where
  model : String
  maxTokens : Option Nat := none
  temperature : Option Nat := none
deriving DecidableEq, Repr

/-- `Session` from `types.ts`. -/
structure Session where
  id : String
  messages : List Message
  systemPrompt : String
  model : ModelConfig
  status : SessionStatus
deriving DecidableEq, Repr

/-- `ToolResult` from `types.ts` (what a tool's executor resolves to).
The optional `metadata` record is omitted: no embedded operation reads it. -/
structure ToolResult where
  output : String
  error : Option String := none
deriving DecidableEq, Repr

/-- Parameter schema (TS `JSONSchema = Record<string, unknown>`): an opaque
structural description; never inspected by any embedded operation. -/
def JSONSchema : Type := String

/-- `ExecutionContext` from `types.ts`.  The optional `abortSignal` is
omitted: neither the executor nor the orchestrator reads it. -/
structure ExecutionContext where
  sessionId : String
  messageId : String
deriving DecidableEq, Repr

/-- The settlement of a tool's `execute(...)` promise: the time at which it
settles and its outcome (resolution with a `ToolResult`, or rejection
carrying the thrown error's message). -/
structure ToolPromise where
  settleTime : Nat
  outcome : Except String ToolResult

/-- `Tool` from `types.ts`. -/
structure Tool where
  name : String
  description : String
  parameters : JSONSchema
  execute : ArgValue → ExecutionContext → ToolPromise

/-- `ToolDefinition` from `types.ts` (the executor-free projection sent to
the inference backend). -/
structure ToolDefinition where
  name : String
  description : String
  parameters : JSONSchema

/-- `Usage` from `types.ts`. -/
structure Usage where
  inputTokens : Nat
  outputTokens : Nat
deriving DecidableEq, Repr

/-- `LLMOutput` from `types.ts`: the response of one inference call.
`finishReason` is one of `"stop" | "tool_calls" | "max_tokens" | "error"`;
it is only forwarded into events, so it is embedded as `String`. -/
structure LLMOutput where
  content : List MessageContent
  finishReason : String
  usage : Usage
deriving DecidableEq, Repr

/-- Errors thrown inside the orchestration loop (from `utils.ts` error
classes, plus a constructor for errors thrown by the caller's `onEvent`
callback). -/
inductive AgentError where
  | maxStepsExceeded (maxSteps : Nat)
  | llmError (message : String)
  | callbackError (message : String)
deriving DecidableEq, Repr

/-- `LLMEvent` from `types.ts`: the incremental streaming event protocol. -/
inductive LLMEvent where
  | text_delta (text : String)
  | tool_call_start (id : String) (name : String)
  | tool_call_delta (id : String) (arguments : String)
  | tool_call_end (id : String) (name : String) (arguments : String)
  | finish (reason : String) (usage : Usage)
  | error (e : AgentError)
deriving DecidableEq, Repr

/-- `AgentEvent` from `types.ts`: the observability events emitted by the
orchestrator. -/
inductive AgentEvent where
  | message_start (role : Role)
  | text (text : String)
  | text_done (text : String)
  | tool_call (id : String) (name : String) (args : ArgValue)
  | tool_result (id : String) (name : String) (result : String) (isError : Bool)
  | message_end (finishReason : String)
  | step (step : Nat) (maxSteps : Nat)
  | error (e : AgentError)
deriving DecidableEq, Repr

/-- The caller's `onEvent` callback: `some msg` models the callback throwing
an error with message `msg`, `none` a normal return. -/
def EventCallback : Type := AgentEvent → Option String

/-- `AgentConfig` (the normalized form held in `Agent.config`): `maxTokens` /
`temperature` are only forwarded verbatim into the inference call, which the
oracle abstraction already closes over, so they are omitted here. -/
structure AgentConfig where
  model : String
  systemPrompt : String
  maxSteps : Nat
  onEvent : Option EventCallback

/-! ## JavaScript `Map` semantics

Association-list embedding of the JS `Map` operations used by the registry
and the streaming state machine: insertion order is preserved, `set`
overwrites in place, `delete` reports presence. -/

/-- `Map.get`. -/
def mapGet {α : Type} (m : List (String × α)) (k : String) : Option α :=
  (m.find? (fun p => p.1 = k)).map (fun p => p.2)

/-- `Map.has`. -/
def mapHas {α : Type} (m : List (String × α)) (k : String) : Bool :=
  m.any (fun p => p.1 = k)

/-- `Map.set`: overwrites in place if the key is present, otherwise appends. -/
def mapSet {α : Type} (m : List (String × α)) (k : String) (v : α) :
    List (String × α) :=
  if mapHas m k then
    m.map (fun p => if p.1 = k then (k, v) else p)
  else
    m ++ [(k, v)]

/-- `Map.delete`: removes the key and returns whether it was present. -/
def mapDelete {α : Type} (m : List (String × α)) (k : String) :
    Bool × List (String × α) :=
  if mapHas m k then (true, m.filter (fun p => ¬ p.1 = k)) else (false, m)

/-! ## Tool registry (`tool/registry.ts`) -/

/-- `ToolRegistry`: a name-keyed `Map` of tools. -/
structure ToolRegistry where
  tools : List (String × Tool)

namespace ToolRegistry

/-- `register`: `this.tools.set(tool.name, tool)`. -/
def register (r : ToolRegistry) (tool : Tool) : ToolRegistry :=
  ⟨mapSet r.tools tool.name tool⟩

/-- `registerMany`. -/
def registerMany (r : ToolRegistry) (tools : List Tool) : ToolRegistry :=
  tools.foldl register r

/-- `unregister`: `this.tools.delete(name)`, returning presence and the
updated registry. -/
def unregister (r : ToolRegistry) (name : String) : Bool × ToolRegistry :=
  let d := mapDelete r.tools name
  (d.1, ⟨d.2⟩)

/-- `get`. -/
def get (r : ToolRegistry) (name : String) : Option Tool :=
  mapGet r.tools name

/-- `has`. -/
def has (r : ToolRegistry) (name : String) : Bool :=
  mapHas r.tools name

/-- `list`: `Array.from(this.tools.values())`. -/
def list (r : ToolRegistry) : List Tool :=
  r.tools.map (fun p => p.2)

/-- `size`. -/
def size (r : ToolRegistry) : Nat :=
  r.tools.length

/-- `toToolDefinitions`: executor-free projection. -/
def toToolDefinitions (r : ToolRegistry) : List ToolDefinition :=
  r.list.map (fun tool =>
    { name := tool.name, description := tool.description,
      parameters := tool.parameters })

end ToolRegistry

/-! ## Tool executor (`tool/executor.ts`) -/

/-- A pre-execution hook (`onBeforeExecute`): returns `void`, so its only
observable interface behaviour is throwing; `some msg` models a throw. -/
def BeforeHook : Type := ToolCallContent → ExecutionContext → Option String

/-- A post-execution hook (`onAfterExecute`). -/
def AfterHook : Type :=
  ToolCallContent → ToolResultContent → ExecutionContext → Option String

/-- `ExecutorOptions` from `tool/executor.ts`. -/
structure ExecutorOptions where
  timeout : Option Nat := none
  onBeforeExecute : Option BeforeHook := none
  onAfterExecute : Option AfterHook := none

/-- JS truthiness of `result.error` (string or undefined): `!!e` is `true`
exactly for a defined, non-empty string. -/
def errTruthy : Option String → Bool
  | none => false
  | some s => !s.isEmpty

/-- `executeWithTimeout` from `ToolExecutor.execute`: with no configured
timeout (`undefined`, or `0`, which is falsy in JS) the tool's own outcome is
awaited; otherwise `Promise.race` of the tool against a `setTimeout`
rejection.  The race is modelled on settlement times: the tool wins if it
settles strictly before the timer fires. -/
def executeWithTimeout (timeout : Option Nat) (p : ToolPromise) :
    Except String ToolResult :=
  match timeout with
  | none => p.outcome
  | some t =>
      if t = 0 then p.outcome
      else if p.settleTime < t then p.outcome
      else Except.error ("Tool execution timed out after " ++ toString t ++ "ms")

namespace ToolExecutor

/-- The `try` block of `ToolExecutor.execute` (everything between the
successful registry lookup and the `catch`): before-hook, the (possibly
timeout-raced) tool execution, mapping `ToolResult` to a `tool_result` block
(`result.error ?? result.output`, `!!result.error`), then the after-hook.
A thrown error anywhere surfaces as `Except.error` with the error's message. -/
def tryBody (opts : ExecutorOptions) (tool : Tool) (call : ToolCallContent)
    (ctx : ExecutionContext) : Except String ToolResultContent :=
  match (match opts.onBeforeExecute with
         | none => none
         | some hook => hook call ctx) with
  | some m => Except.error m
  | none =>
    match executeWithTimeout opts.timeout (tool.execute call.arguments ctx) with
    | Except.error m => Except.error m
    | Except.ok result =>
      let toolResult : ToolResultContent :=
        { toolCallId := call.id,
          result := result.error.getD result.output,
          isError := errTruthy result.error }
      match (match opts.onAfterExecute with
             | none => none
             | some hook => hook call toolResult ctx) with
      | some m => Except.error m
      | none => Except.ok toolResult

/-- `ToolExecutor.execute`: registry lookup with a structured not-found
result, then the `try` block with its `catch` converting any thrown error
into an `isError` result carrying the error's message. -/
def execute (reg : ToolRegistry) (opts : ExecutorOptions)
    (call : ToolCallContent) (ctx : ExecutionContext) : ToolResultContent :=
  match reg.get call.name with
  | none =>
      { toolCallId := call.id,
        result := "Tool not found: " ++ call.name,
        isError := true }
  | some tool =>
      match tryBody opts tool call ctx with
      | Except.ok r => r
      | Except.error m =>
          { toolCallId := call.id, result := m, isError := true }

/-- `ToolExecutor.executeAll`: `Promise.all(calls.map(execute))`. -/
def executeAll (reg : ToolRegistry) (opts : ExecutorOptions)
    (calls : List ToolCallContent) (ctx : ExecutionContext) :
    List ToolResultContent :=
  calls.map (fun call => execute reg opts call ctx)

/-- `ToolExecutor.executeSequential`. -/
def executeSequential (reg : ToolRegistry) (opts : ExecutorOptions)
    (calls : List ToolCallContent) (ctx : ExecutionContext) :
    List ToolResultContent :=
  calls.map (fun call => execute reg opts call ctx)

end ToolExecutor

/-! ## `Promise.all` settlement model

`Promise.all` starts all tasks together; each settles at some point and its
value is written into the slot of its originating index; once all have
settled, the array of slots is returned.  `promiseAllSettled order tasks`
performs exactly this assembly for an arbitrary settlement order over the
task indices. -/

/-- Write each settled task's value into the slot of its index, processing
settlements in `order`. -/
def settleSlots {α : Type} (tasks : List α) (order : List Nat) :
    Nat → Option α :=
  order.foldl (fun acc i => fun j => if j = i then tasks.get? i else acc j)
    (fun _ => none)

/-- The array `Promise.all` resolves with, given a settlement order over the
task indices. -/
def promiseAllSettled {α : Type} (order : List Nat) (tasks : List α) :
    List α :=
  (List.range tasks.length).filterMap (settleSlots tasks order)

/-! ## Session operations (`session/session.ts`) -/

/-- `generateId()` modelled by a threaded counter. -/
def mkId (n : Nat) : String := "id" ++ toString n

/-- `addUserMessage`: wraps the string into a single text block and appends. -/
def addUserMessage (messages : List Message) (text : String) (nid : Nat) :
    List Message :=
  messages ++ [{ id := mkId nid, role := Role.user,
                 content := [MessageContent.text text] }]

/-- `getLastAssistantMessage`: backward scan for the last assistant message. -/
def getLastAssistantMessage (sess : Session) : Option Message :=
  sess.messages.reverse.find? (fun m => m.role = Role.assistant)

/-- `getTextContent`: concatenates the text blocks of a message with `"\n"`. -/
def getTextContent (m : Message) : String :=
  String.intercalate "\n"
    (m.content.filterMap (fun c =>
      match c with
      | MessageContent.text t => some t
      | _ => none))

/-! ## Agent orchestrator (`agent/agent.ts`) -/

/-- Projection of a `tool_call` block (`c.type === "tool_call"` filter). -/
def toolCallOf : MessageContent → Option ToolCallContent
  | MessageContent.toolCall id name args => some ⟨id, name, args⟩
  | _ => none

/-- `response.content.filter((c) => c.type === "tool_call")`. -/
def contentToolCalls (content : List MessageContent) : List ToolCallContent :=
  content.filterMap toolCallOf

/-- A `tool_call` block as message content. -/
def ToolCallContent.toContent (c : ToolCallContent) : MessageContent :=
  MessageContent.toolCall c.id c.name c.arguments

/-- A `tool_result` block as message content. -/
def ToolResultContent.toContent (r : ToolResultContent) : MessageContent :=
  MessageContent.toolResult r.toolCallId r.result r.isError

/-- The behaviour of `llm.call` (the inference backend, abstracted at its
interface): given the transcript it either returns a response or throws. -/
def LLMOracle : Type := List Message → Except AgentError LLMOutput

/-- The behaviour of `llm.stream`: given the transcript, the sequence of
streaming events produced for this step. -/
def StreamOracle : Type := List Message → List LLMEvent

namespace Agent

/-- `Agent.emit`: `this.config.onEvent?.(event)`; `some e` models the
callback throwing. -/
def emit (cfg : AgentConfig) (e : AgentEvent) : Option AgentError :=
  match cfg.onEvent with
  | none => none
  | some cb => (cb e).map AgentError.callbackError

/-- A sequence of consecutive `emit` calls; the first throw aborts the rest. -/
def emitSeq (cfg : AgentConfig) : List AgentEvent → Option AgentError
  | [] => none
  | e :: es =>
      match emit cfg e with
      | some err => some err
      | none => emitSeq cfg es

/-- The `text` / `text_done` event pairs emitted for each text block of an
assistant response. -/
def textEvents (content : List MessageContent) : List AgentEvent :=
  content.flatMap (fun c =>
    match c with
    | MessageContent.text t => [AgentEvent.text t, AgentEvent.text_done t]
    | _ => [])

/-- The `tool_result` events emitted after executing a step's tool calls
(the name is recovered by searching the calls, `"unknown"` if absent). -/
def toolResultEvents (toolCalls : List ToolCallContent)
    (results : List ToolResultContent) : List AgentEvent :=
  results.map (fun r =>
    let name :=
      ((toolCalls.find? (fun c => c.id = r.toolCallId)).map
        (fun c => c.name)).getD "unknown"
    AgentEvent.tool_result r.toolCallId name r.result r.isError)

/-- How the `while` loop exited: normally (with the final value of the step
counter) or by a thrown error. -/
inductive LoopExit where
  | finished (step : Nat)
  | threw (e : AgentError)
deriving DecidableEq, Repr

/-- State at loop exit: the session's message list, the id counter, the
transcripts passed to each inference call (in order), and the exit. -/
structure LoopOut where
  messages : List Message
  nextId : Nat
  trace : List (List Message)
  exit : LoopExit
deriving Repr

/-- The `while (step < maxSteps)` loop of `Agent.run`.  The `fuel` argument
is `maxSteps` at entry, so it never runs out before the loop condition
fails; the zero-fuel branch mirrors the condition-false exit. -/
def runLoop (cfg : AgentConfig) (oracle : LLMOracle) (reg : ToolRegistry)
    (sessionId : String) :
    List Message → Nat → Nat → Nat → LoopOut
  | msgs, step, nid, 0 => ⟨msgs, nid, [], LoopExit.finished step⟩
  | msgs, step, nid, fuel+1 =>
    if step < cfg.maxSteps then
      let step1 := step + 1
      match emit cfg (AgentEvent.step step1 cfg.maxSteps) with
      | some e => ⟨msgs, nid, [], LoopExit.threw e⟩
      | none =>
        match oracle msgs with
        | Except.error e => ⟨msgs, nid, [msgs], LoopExit.threw e⟩
        | Except.ok response =>
          let amsg : Message :=
            ⟨mkId nid, Role.assistant, response.content⟩
          let msgs1 := msgs ++ [amsg]
          match emitSeq cfg
              (AgentEvent.message_start Role.assistant ::
               textEvents response.content) with
          | some e => ⟨msgs1, nid+1, [msgs], LoopExit.threw e⟩
          | none =>
            let toolCalls := contentToolCalls response.content
            if toolCalls.isEmpty then
              match emit cfg (AgentEvent.message_end response.finishReason) with
              | some e => ⟨msgs1, nid+1, [msgs], LoopExit.threw e⟩
              | none => ⟨msgs1, nid+1, [msgs], LoopExit.finished step1⟩
            else
              match emitSeq cfg (toolCalls.map (fun c =>
                  AgentEvent.tool_call c.id c.name c.arguments)) with
              | some e => ⟨msgs1, nid+1, [msgs], LoopExit.threw e⟩
              | none =>
                let results := ToolExecutor.executeAll reg {} toolCalls
                  ⟨sessionId, amsg.id⟩
                let tmsg : Message :=
                  ⟨mkId (nid+1), Role.tool,
                   results.map ToolResultContent.toContent⟩
                let msgs2 := msgs1 ++ [tmsg]
                match emitSeq cfg
                    (AgentEvent.message_start Role.tool ::
                     toolResultEvents toolCalls results ++
                     [AgentEvent.message_end "tool_results"]) with
                | some e => ⟨msgs2, nid+2, [msgs], LoopExit.threw e⟩
                | none =>
                  let rest := runLoop cfg oracle reg sessionId msgs2 step1
                    (nid+2) fuel
                  { rest with trace := msgs :: rest.trace }
    else ⟨msgs, nid, [], LoopExit.finished step⟩

/-- The `catch` block's `this.emit({type:"error",...})`: if the callback
itself throws there, that error propagates instead of the original. -/
def catchEmit (cfg : AgentConfig) (e : AgentError) : AgentError :=
  match emit cfg (AgentEvent.error e) with
  | some e2 => e2
  | none => e

/-- Result of one `run` invocation: the final session, the transcripts
passed to each inference call, and the returned messages or thrown error. -/
structure RunOut where
  session : Session
  trace : List (List Message)
  outcome : Except AgentError (List Message)
deriving Repr

/-- `Agent.run`: append the user message, run the step loop, then the
`if (step >= maxSteps) throw` check; the `catch` marks the session `error`
and re-emits before rethrowing.  `nid` seeds the id counter. -/
def run (cfg : AgentConfig) (oracle : LLMOracle) (reg : ToolRegistry)
    (sess : Session) (userMessage : String) (nid : Nat) : RunOut :=
  let msgs0 := addUserMessage sess.messages userMessage nid
  let lo := runLoop cfg oracle reg sess.id msgs0 0 (nid+1) cfg.maxSteps
  match lo.exit with
  | LoopExit.threw e =>
      { session := { sess with
          messages := lo.messages
          status := SessionStatus.error },
        trace := lo.trace,
        outcome := Except.error (catchEmit cfg e) }
  | LoopExit.finished step =>
      if cfg.maxSteps ≤ step then
        let e := AgentError.maxStepsExceeded cfg.maxSteps
        { session := { sess with
            messages := lo.messages
            status := SessionStatus.error },
          trace := lo.trace,
          outcome := Except.error (catchEmit cfg e) }
      else
        { session := { sess with
            messages := lo.messages
            status := SessionStatus.completed },
          trace := lo.trace,
          outcome := Except.ok lo.messages }

/-! ### Streaming mode -/

/-- Accumulator state of the streaming state machine (one step of
`Agent.stream`). -/
structure StreamState where
  content : List MessageContent
  toolCalls : List ToolCallContent
  currentText : String
  toolCallBuffers : List (String × (String × String × String))
deriving DecidableEq, Repr

/-- The empty per-step streaming state. -/
def initStream : StreamState := ⟨[], [], "", []⟩

/-- One transition of the streaming state machine (`switch (event.type)`
inside `Agent.stream`), returning the new state, the yielded agent events,
and the thrown error for an `error` event.  A buffer entry is the
`{id, name, arguments}` record, stored as a nested pair. -/
def processEvent (parses : String → Bool) (st : StreamState) :
    LLMEvent → StreamState × List AgentEvent × Option AgentError
  | LLMEvent.text_delta t =>
      ({ st with currentText := st.currentText ++ t },
       [AgentEvent.text t], none)
  | LLMEvent.tool_call_start id name =>
      ({ st with toolCallBuffers :=
           mapSet st.toolCallBuffers id (id, name, "") }, [], none)
  | LLMEvent.tool_call_delta id a =>
      (match mapGet st.toolCallBuffers id with
       | some b =>
           ({ st with toolCallBuffers :=
                mapSet st.toolCallBuffers id (b.1, b.2.1, b.2.2 ++ a) },
            [], none)
       | none => (st, [], none))
  | LLMEvent.tool_call_end id name a =>
      let args := if parses a then ArgValue.parsed a else ArgValue.str a
      ({ st with toolCalls := st.toolCalls ++ [⟨id, name, args⟩] },
       [AgentEvent.tool_call id name args], none)
  | LLMEvent.finish reason _ =>
      if st.currentText = "" then
        (st, [AgentEvent.message_end reason], none)
      else
        ({ st with content := st.content ++
             [MessageContent.text st.currentText] },
         [AgentEvent.text_done st.currentText,
          AgentEvent.message_end reason], none)
  | LLMEvent.error e =>
      (st, [AgentEvent.error e], some e)

/-- The `for await` loop over the step's event sequence: a thrown error
aborts the remaining events. -/
def processEvents (parses : String → Bool) :
    StreamState → List LLMEvent →
    StreamState × List AgentEvent × Option AgentError
  | st, [] => (st, [], none)
  | st, ev :: evs =>
      let r := processEvent parses st ev
      match r.2.2 with
      | some e => (r.1, r.2.1, some e)
      | none =>
          let rest := processEvents parses r.1 evs
          (rest.1, r.2.1 ++ rest.2.1, rest.2.2)

/-- The assistant-message content assembled from one step's event sequence:
the sealed content followed by the completed tool calls
(`content.push(...toolCalls)` after the event loop). -/
def assembleContent (parses : String → Bool) (evs : List LLMEvent) :
    List MessageContent :=
  let st := (processEvents parses initStream evs).1
  st.content ++ st.toolCalls.map ToolCallContent.toContent

/-- The `while (step < maxSteps)` loop of `Agent.stream`. -/
def streamLoop (cfg : AgentConfig) (oracleS : StreamOracle)
    (parses : String → Bool) (reg : ToolRegistry) (sessionId : String) :
    List Message → Nat → Nat → Nat → LoopOut
  | msgs, step, nid, 0 => ⟨msgs, nid, [], LoopExit.finished step⟩
  | msgs, step, nid, fuel+1 =>
    if step < cfg.maxSteps then
      let step1 := step + 1
      let pr := processEvents parses initStream (oracleS msgs)
      match pr.2.2 with
      | some e => ⟨msgs, nid, [msgs], LoopExit.threw e⟩
      | none =>
        let st := pr.1
        let content := st.content ++ st.toolCalls.map ToolCallContent.toContent
        let amsg : Message := ⟨mkId nid, Role.assistant, content⟩
        let msgs1 := msgs ++ [amsg]
        if st.toolCalls.isEmpty then
          ⟨msgs1, nid+1, [msgs], LoopExit.finished step1⟩
        else
          let results := ToolExecutor.executeAll reg {} st.toolCalls
            ⟨sessionId, amsg.id⟩
          let tmsg : Message :=
            ⟨mkId (nid+1), Role.tool, results.map ToolResultContent.toContent⟩
          let msgs2 := msgs1 ++ [tmsg]
          let rest := streamLoop cfg oracleS parses reg sessionId msgs2 step1
            (nid+2) fuel
          { rest with trace := msgs :: rest.trace }
    else ⟨msgs, nid, [], LoopExit.finished step⟩

/-- Result of one `stream` invocation (the generator returns no value, so a
successful outcome carries no data). -/
structure StreamOut where
  session : Session
  trace : List (List Message)
  outcome : Except AgentError Unit
deriving Repr

/-- `Agent.stream`: same skeleton as `run`, consuming an event sequence per
step; yields are pure outputs and never affect state. -/
def stream (cfg : AgentConfig) (oracleS : StreamOracle)
    (parses : String → Bool) (reg : ToolRegistry)
    (sess : Session) (userMessage : String) (nid : Nat) : StreamOut :=
  let msgs0 := addUserMessage sess.messages userMessage nid
  let lo := streamLoop cfg oracleS parses reg sess.id msgs0 0 (nid+1)
    cfg.maxSteps
  match lo.exit with
  | LoopExit.threw e =>
      { session := { sess with
          messages := lo.messages
          status := SessionStatus.error },
        trace := lo.trace,
        outcome := Except.error e }
  | LoopExit.finished step =>
      if cfg.maxSteps ≤ step then
        { session := { sess with
            messages := lo.messages
            status := SessionStatus.error },
          trace := lo.trace,
          outcome := Except.error (AgentError.maxStepsExceeded cfg.maxSteps) }
      else
        { session := { sess with
            messages := lo.messages
            status := SessionStatus.completed },
          trace := lo.trace,
          outcome := Except.ok () }

end Agent

/-! ## MCP tool adapter (`mcp/client.ts`) -/

/-- One item of an MCP call's `content` array: either an object with a
`text` field, or any other value (carried as its `JSON.stringify`). -/
inductive MCPContentItem where
  | textItem (text : String)
  | otherItem (json : String)
deriving DecidableEq, Repr

/-- The `content` of an MCP call result: an array of items, or a non-array
value (carried as its `JSON.stringify`). -/
inductive MCPCallContent where
  | items (l : List MCPContentItem)
  | nonArray (json : String)
deriving DecidableEq, Repr

/-- The remote host's response to `client.callTool`. -/
structure MCPCallResponse where
  content : MCPCallContent
  isError : Bool
deriving DecidableEq, Repr

/-- Behaviour of the remote `callTool` RPC: resolves with a response or
rejects with an error message. -/
def MCPRemote : Type := Except String MCPCallResponse

/-- Settlement of `MCPClient.callTool` at its interface: a resolved
`ToolResult` or a thrown error (an `async` function's throw is a rejected
promise). -/
inductive MCPCallOutcome where
  | ok (r : ToolResult)
  | thrown (message : String)
deriving DecidableEq, Repr

namespace MCPClient

/-- The output-string assembly of `callTool`: text items pass through,
non-text items are stringified, items are joined with `"\n"`; non-array
content is stringified whole. -/
def renderContent : MCPCallContent → String
  | MCPCallContent.items l =>
      String.intercalate "\n" (l.map (fun c =>
        match c with
        | MCPContentItem.textItem t => t
        | MCPContentItem.otherItem j => j))
  | MCPCallContent.nonArray j => j

/-- `MCPClient.callTool`: the not-connected check throws *outside* the
`try`; inside it, a rejection of the remote call is caught and returned as a
`ToolResult` whose `error` carries the message, and a response with
`isError` gets its whole output copied into `error`. -/
def callTool (connected : Bool) (remote : MCPRemote) : MCPCallOutcome :=
  if !connected then
    MCPCallOutcome.thrown "MCP client is not connected"
  else
    match remote with
    | Except.error e =>
        MCPCallOutcome.ok { output := "", error := some e }
    | Except.ok resp =>
        let output := renderContent resp.content
        MCPCallOutcome.ok
          { output := output,
            error := if resp.isError then some output else none }

end MCPClient

/-! ## Helper lemmas on the `Map` embedding -/

theorem mapHas_cons {α : Type} (p : String × α) (m : List (String × α))
    (k : String) :
    mapHas (p :: m) k = (decide (p.1 = k) || mapHas m k) := by
  simp [mapHas, List.any_cons]

theorem mapGet_mapSet_self {α : Type} (m : List (String × α)) (k : String)
    (v : α) : mapGet (mapSet m k v) k = some v := by
  unfold mapSet
  by_cases h : mapHas m k
  · simp only [h, if_true]
    induction m with
    | nil => simp [mapHas] at h
    | cons p m ih =>
      by_cases hp : p.1 = k
      · simp [mapGet, List.find?, hp]
      · have h' : mapHas m k := by
          rw [mapHas_cons] at h
          simpa [hp] using h
        have := ih h'
        simpa [mapGet, List.find?, hp] using this
  · simp only [h, if_false]
    have hnone : (m.find? (fun p => decide (p.1 = k))) = none := by
      rw [List.find?_eq_none]
      intro p hp
      simp only [decide_eq_true_eq]
      intro hk
      have : mapHas m k = true := by
        unfold mapHas
        rw [List.any_eq_true]
        exact ⟨p, hp, by simpa using hk⟩
      exact h this
    simp [mapGet, List.find?_append, hnone, List.find?]

theorem mapHas_mapSet_self {α : Type} (m : List (String × α)) (k : String)
    (v : α) : mapHas (mapSet m k v) k = true := by
  unfold mapHas
  rw [List.any_eq_true]
  unfold mapSet
  by_cases h : mapHas m k
  · simp only [h, if_true]
    unfold mapHas at h
    rw [List.any_eq_true] at h
    obtain ⟨p, hp, hk⟩ := h
    refine ⟨(k, v), ?_, by simp⟩
    rw [List.mem_map]
    exact ⟨p, hp, by simp at hk; simp [hk]⟩
  · simp only [h, if_false]
    exact ⟨(k, v), by simp, by simp⟩

theorem length_mapSet_of_has {α : Type} (m : List (String × α)) (k : String)
    (v : α) (h : mapHas m k = true) :
    (mapSet m k v).length = m.length := by
  unfold mapSet
  simp [h]

theorem mapDelete_of_not_has {α : Type} (m : List (String × α)) (k : String)
    (h : mapHas m k = false) : mapDelete m k = (false, m) := by
  unfold mapDelete
  simp [h]

/-! ## C7: registry last-write-wins, total unregister -/

/-- C7: the registry is last-write-wins and `unregister` is total: after
registering `t1` then `t2` under the same name, `get` returns `t2` and the
size has not grown (the name is counted once); deleting a name that is not
present returns `false` and leaves the registry unchanged. -/
theorem registry_last_write_wins_unregister_total
    (r r' : ToolRegistry) (t1 t2 : Tool) (name : String)
    (hname : t1.name = t2.name)
    (habsent : r'.has name = false) :
    ((r.register t1).register t2).get t1.name = some t2 ∧
    ((r.register t1).register t2).size = (r.register t1).size ∧
    r'.unregister name = (false, r') := by
  refine ⟨?_, ?_, ?_⟩
  · show mapGet (mapSet (mapSet r.tools t1.name t1) t2.name t2) t1.name
      = some t2
    rw [hname]
    exact mapGet_mapSet_self _ _ _
  · show (mapSet (mapSet r.tools t1.name t1) t2.name t2).length
      = (mapSet r.tools t1.name t1).length
    rw [hname] at *
    exact length_mapSet_of_has _ _ _ (mapHas_mapSet_self _ _ _)
  · show (let d := mapDelete r'.tools name; (d.1, (⟨d.2⟩ : ToolRegistry)))
      = (false, r')
    have := mapDelete_of_not_has r'.tools name habsent
    simp [this]

/-- Closed witness for C7 at a concrete registry and two same-named tools. -/
theorem registry_last_write_wins_unregister_total_witness :
    (((⟨[]⟩ : ToolRegistry).register
        ⟨"t", "first", "s", fun _ _ => ⟨0, Except.ok ⟨"1", none⟩⟩⟩).register
        ⟨"t", "second", "s", fun _ _ => ⟨0, Except.ok ⟨"2", none⟩⟩⟩).get "t"
      = some ⟨"t", "second", "s", fun _ _ => ⟨0, Except.ok ⟨"2", none⟩⟩⟩ ∧
    (((⟨[]⟩ : ToolRegistry).register
        ⟨"t", "first", "s", fun _ _ => ⟨0, Except.ok ⟨"1", none⟩⟩⟩).register
        ⟨"t", "second", "s", fun _ _ => ⟨0, Except.ok ⟨"2", none⟩⟩⟩).size
      = ((⟨[]⟩ : ToolRegistry).register
        ⟨"t", "first", "s", fun _ _ => ⟨0, Except.ok ⟨"1", none⟩⟩⟩).size ∧
    (⟨[]⟩ : ToolRegistry).unregister "ghost" = (false, (⟨[]⟩ : ToolRegistry)) :=
  registry_last_write_wins_unregister_total ⟨[]⟩ ⟨[]⟩ _ _ "ghost" rfl rfl

/-! ## C8: MCP adapter error surfacing -/

/-- C8 counterexample: calling the adapted tool when the client is not
connected *throws* (the check precedes the `try`), it does not return a
`ToolResult` with the error field set. -/
theorem mcp_callTool_disconnected_throws :
    MCPClient.callTool false
        (Except.ok ⟨MCPCallContent.items [], false⟩)
      = MCPCallOutcome.thrown "MCP client is not connected" ∧
    ∀ r : ToolResult,
      MCPClient.callTool false (Except.ok ⟨MCPCallContent.items [], false⟩)
        ≠ MCPCallOutcome.ok r := by
  refine ⟨rfl, ?_⟩
  intro r h
  simp [MCPClient.callTool] at h

/-- C8 (amended): once the client is connected, `callTool` never throws:
a rejected remote call is returned as a `ToolResult` whose `error` carries
the message, and a response flagged `isError` is returned with `error` set
to the rendered output. -/
theorem mcp_callTool_connected_surfaces_errors (remote : MCPRemote) :
    (∀ msg, MCPClient.callTool true remote ≠ MCPCallOutcome.thrown msg) ∧
    (∀ e, remote = Except.error e →
      MCPClient.callTool true remote
        = MCPCallOutcome.ok { output := "", error := some e }) ∧
    (∀ resp, remote = Except.ok resp → resp.isError = true →
      MCPClient.callTool true remote
        = MCPCallOutcome.ok
            { output := MCPClient.renderContent resp.content,
              error := some (MCPClient.renderContent resp.content) }) := by
  refine ⟨?_, ?_, ?_⟩
  · intro msg h
    unfold MCPClient.callTool at h
    cases remote with
    | error e => simp at h
    | ok resp => simp at h
  · intro e he
    subst he
    rfl
  · intro resp he hisErr
    subst he
    simp [MCPClient.callTool, hisErr]

/-- Closed witness for the amended C8 at a rejected remote call. -/
theorem mcp_callTool_connected_surfaces_errors_witness :
    MCPClient.callTool true (Except.error "connection reset")
      = MCPCallOutcome.ok { output := "", error := some "connection reset" } :=
  (mcp_callTool_connected_surfaces_errors
    (Except.error "connection reset")).2.1 "connection reset" rfl
/-! ## C2: the executor is total at its interface -/

/-- Any successful outcome of the `try` block carries the call's id. -/
theorem tryBody_ok_toolCallId (opts : ExecutorOptions) (tool : Tool)
    (call : ToolCallContent) (ctx : ExecutionContext) (r : ToolResultContent)
    (h : ToolExecutor.tryBody opts tool call ctx = Except.ok r) :
    r.toolCallId = call.id := by
  unfold ToolExecutor.tryBody at h
  repeat' split at h
  all_goals try simp only [] at h
  all_goals repeat' split at h
  all_goals try exact Except.noConfusion h
  all_goals try injection h with h2
  all_goals first
    | rw [← h2]
    | rw [← h]

/-- C2: `ToolExecutor.execute` is an exception-free total function (it is a
plain function into `tool_result` blocks, with every throw site of its
callees modelled as a value): an absent tool yields an `isError` result
naming the tool; any throw inside the `try` block (a hook, the tool itself,
or the timeout rejection) is converted by the `catch` into an `isError`
result carrying the error's message; and `executeAll` is the elementwise
map of `execute`, so no exception escapes the batch either. -/
theorem executor_total_never_throws (reg : ToolRegistry)
    (opts : ExecutorOptions) (call : ToolCallContent)
    (ctx : ExecutionContext) :
    (reg.get call.name = none →
      ToolExecutor.execute reg opts call ctx
        = { toolCallId := call.id,
            result := "Tool not found: " ++ call.name, isError := true }) ∧
    (∀ tool m, reg.get call.name = some tool →
      ToolExecutor.tryBody opts tool call ctx = Except.error m →
      ToolExecutor.execute reg opts call ctx
        = { toolCallId := call.id, result := m, isError := true }) ∧
    (∀ tool hook m, reg.get call.name = some tool →
      opts.onBeforeExecute = some hook → hook call ctx = some m →
      ToolExecutor.execute reg opts call ctx
        = { toolCallId := call.id, result := m, isError := true }) ∧
    (∀ tool t m, reg.get call.name = some tool →
      opts.onBeforeExecute = none → opts.timeout = none →
      tool.execute call.arguments ctx = ⟨t, Except.error m⟩ →
      ToolExecutor.execute reg opts call ctx
        = { toolCallId := call.id, result := m, isError := true }) ∧
    (∀ calls, ToolExecutor.executeAll reg opts calls ctx
      = calls.map (fun c => ToolExecutor.execute reg opts c ctx)) := by
  refine ⟨?_, ?_, ?_, ?_, ?_⟩
  · intro h
    simp only [ToolExecutor.execute, h]
  · intro tool m hget hbody
    simp only [ToolExecutor.execute, hget, hbody]
  · intro tool hook m hget hhook hthrow
    simp only [ToolExecutor.execute, hget, ToolExecutor.tryBody, hhook,
      hthrow]
  · intro tool t m hget hhook htimeout hrun
    simp only [ToolExecutor.execute, hget, ToolExecutor.tryBody, hhook,
      executeWithTimeout, htimeout, hrun]
  · intro calls
    rfl

/-- Closed witness for C2: executing a hallucinated tool name against an
empty registry returns the structured not-found result. -/
theorem executor_total_never_throws_witness :
    ToolExecutor.execute ⟨[]⟩ {} ⟨"c1", "imaginary", ArgValue.str "noargs"⟩
        ⟨"s", "m"⟩
      = { toolCallId := "c1", result := "Tool not found: imaginary",
          isError := true } :=
  (executor_total_never_throws ⟨[]⟩ {} ⟨"c1", "imaginary", ArgValue.str "noargs"⟩
    ⟨"s", "m"⟩).1 rfl

/-! ## C10: mapping of a resolved `ToolResult` to a `tool_result` block -/

/-- C10: for a registered tool whose promise resolves with a `ToolResult`
(default executor options: no hooks, no timeout), the produced block's
`result` is `error ?? output` (the error string when defined, even empty,
else the output) and `isError` is the JS truthiness of the error field. -/
theorem executor_result_error_precedence (reg : ToolRegistry)
    (opts : ExecutorOptions) (call : ToolCallContent) (ctx : ExecutionContext)
    (tool : Tool) (r : ToolResult) (t : Nat)
    (hget : reg.get call.name = some tool)
    (hb : opts.onBeforeExecute = none) (ha : opts.onAfterExecute = none)
    (ht : opts.timeout = none)
    (hrun : tool.execute call.arguments ctx = ⟨t, Except.ok r⟩) :
    ToolExecutor.execute reg opts call ctx
      = { toolCallId := call.id, result := r.error.getD r.output,
          isError := errTruthy r.error } := by
  simp only [ToolExecutor.execute, hget, ToolExecutor.tryBody, hb,
    executeWithTimeout, ht, hrun, ha]

/-- Closed witness for C10: a `ToolResult` with a defined but empty `error`
string (`""`) yields `result = ""` with `isError = false`, discarding the
output. -/
theorem executor_result_error_precedence_witness :
    ToolExecutor.execute
        (ToolRegistry.register ⟨[]⟩
          ⟨"echo", "d", "s", fun _ _ => ⟨0, Except.ok ⟨"real output", some ""⟩⟩⟩)
        {} ⟨"c1", "echo", ArgValue.str "noargs"⟩ ⟨"s", "m"⟩
      = { toolCallId := "c1", result := "", isError := false } := by
  have h := executor_result_error_precedence
    (ToolRegistry.register ⟨[]⟩
      ⟨"echo", "d", "s", fun _ _ => ⟨0, Except.ok ⟨"real output", some ""⟩⟩⟩)
    {} ⟨"c1", "echo", ArgValue.str "noargs"⟩ ⟨"s", "m"⟩
    ⟨"echo", "d", "s", fun _ _ => ⟨0, Except.ok ⟨"real output", some ""⟩⟩⟩
    ⟨"real output", some ""⟩ 0 rfl rfl rfl rfl rfl
  simpa using h

/-! ## C3: `Promise.all` result order matches call order -/

theorem settleSlots_of_mem {α : Type} (tasks : List α) (order : List Nat)
    (i : Nat) (h : i ∈ order) :
    settleSlots tasks order i = tasks.get? i := by
  induction order using List.reverseRecOn with
  | nil => cases h
  | append_singleton order j ih =>
    unfold settleSlots at ih ⊢
    rw [List.foldl_append, List.foldl_cons, List.foldl_nil]
    by_cases hj : i = j
    · simp [hj]
    · have hmem : i ∈ order := by
        rcases List.mem_append.mp h with h' | h'
        · exact h'
        · simp at h'
          exact absurd h' hj
      simpa [hj] using ih hmem

theorem filterMap_range_getsome {α : Type} (l : List α) :
    (List.range l.length).filterMap (fun i => l.get? i) = l := by
  induction l with
  | nil => simp
  | cons a l ih =>
    rw [List.length_cons, List.range_succ_eq_map, List.filterMap_cons]
    simp only [List.get?]
    rw [List.filterMap_map]
    have hcomp : ((fun i => (a :: l).get? i) ∘ Nat.succ)
        = fun i => l.get? i := by
      funext i
      rfl
    rw [hcomp, ih]

/-- Every result produced by `execute` answers the call it was made for. -/
theorem execute_toolCallId (reg : ToolRegistry) (opts : ExecutorOptions)
    (call : ToolCallContent) (ctx : ExecutionContext) :
    (ToolExecutor.execute reg opts call ctx).toolCallId = call.id := by
  unfold ToolExecutor.execute
  split
  · rfl
  · split
    · rename_i r htb
      exact tryBody_ok_toolCallId _ _ _ _ _ htb
    · rfl

/-- `Promise.all` assembles by originating index: for every settlement order
of the task indices, the resolved array is the tasks in input order. -/
theorem promiseAllSettled_eq_tasks {α : Type} (order : List Nat)
    (tasks : List α) (h : order.Perm (List.range tasks.length)) :
    promiseAllSettled order tasks = tasks := by
  unfold promiseAllSettled
  rw [List.filterMap_congr (g := fun i => tasks.get? i) ?_]
  · exact filterMap_range_getsome tasks
  · intro i hi
    exact settleSlots_of_mem tasks order i (h.mem_iff.mpr hi)

/-- C3: for every list of tool calls, every execution context, every tool
behaviour (carried by the registry) and every settlement order of the
individual executions, the array `Promise.all` resolves with has one result
per call, the `i`-th result corresponding to the `i`-th call
(`toolCallId = cᵢ.id`), independent of completion order. -/
theorem executeAll_result_order_matches_call_order (reg : ToolRegistry)
    (opts : ExecutorOptions) (calls : List ToolCallContent)
    (ctx : ExecutionContext) (order : List Nat)
    (h : order.Perm (List.range calls.length)) :
    promiseAllSettled order
        (calls.map (fun call => ToolExecutor.execute reg opts call ctx))
      = ToolExecutor.executeAll reg opts calls ctx ∧
    (ToolExecutor.executeAll reg opts calls ctx).length = calls.length ∧
    ∀ i, ((ToolExecutor.executeAll reg opts calls ctx).get? i).map
          (fun r => r.toolCallId)
        = (calls.get? i).map (fun c => c.id) := by
  refine ⟨?_, ?_, ?_⟩
  · apply promiseAllSettled_eq_tasks
    simpa using h
  · simp [ToolExecutor.executeAll]
  · intro i
    unfold ToolExecutor.executeAll
    rw [List.get?_map]
    cases hc : calls.get? i with
    | none => rfl
    | some call =>
      simp only [Option.map_some']
      congr 1
      exact execute_toolCallId reg opts call ctx

/-- Closed witness for C3 at three calls `[A, B, C]` with settlement order
"B first, then A, then C". -/
theorem executeAll_result_order_matches_call_order_witness :
    ([1, 0, 2] : List Nat).Perm (List.range 3) ∧
    ∀ i, ((ToolExecutor.executeAll ⟨[]⟩ {}
            [⟨"A", "a", ArgValue.str ""⟩, ⟨"B", "b", ArgValue.str ""⟩,
             ⟨"C", "c", ArgValue.str ""⟩] ⟨"s", "m"⟩).get? i).map
          (fun r => r.toolCallId)
        = (([⟨"A", "a", ArgValue.str ""⟩, ⟨"B", "b", ArgValue.str ""⟩,
             ⟨"C", "c", ArgValue.str ""⟩] : List ToolCallContent).get? i).map
          (fun c => c.id) :=
  ⟨by decide,
   (executeAll_result_order_matches_call_order ⟨[]⟩ {}
      [⟨"A", "a", ArgValue.str ""⟩, ⟨"B", "b", ArgValue.str ""⟩,
       ⟨"C", "c", ArgValue.str ""⟩] ⟨"s", "m"⟩ [1, 0, 2] (by decide)).2.2⟩

/-! ## C1: termination at the final budgeted step (off-by-one) -/

/-- C1: evaluation of `Agent.run` at the failing input.  With `maxSteps = 1`
and a first inference response containing **zero** tool-call blocks, the
loop `break`s at step 1 with the final answer appended — and then the
`if (step >= maxSteps)` check still throws `MaxStepsExceeded` and marks the
session `error` instead of `completed`: the terminating (tool-call-free)
step is not exempted when it is exactly the `maxSteps`-th step. -/
theorem agent_run_terminating_final_step_still_errors :
    (Agent.run ⟨"gpt-5-mini", "", 1, none⟩
        (fun _ => Except.ok
          ⟨[MessageContent.text "final answer"], "stop", ⟨0, 0⟩⟩)
        ⟨[]⟩ ⟨"s", [], "", ⟨"gpt-5-mini", none, none⟩, SessionStatus.idle⟩
        "hi" 0).session.status = SessionStatus.error ∧
    (Agent.run ⟨"gpt-5-mini", "", 1, none⟩
        (fun _ => Except.ok
          ⟨[MessageContent.text "final answer"], "stop", ⟨0, 0⟩⟩)
        ⟨[]⟩ ⟨"s", [], "", ⟨"gpt-5-mini", none, none⟩, SessionStatus.idle⟩
        "hi" 0).outcome
      = Except.error (AgentError.maxStepsExceeded 1) := by
  constructor <;> rfl

/-! ## C9: progress-event emission and control flow -/

/-- C9 counterexample: an `onEvent` callback whose invocations throw *does*
affect control flow and final state: with a response containing zero tool
calls and `maxSteps = 2`, the run with a throwing callback ends with the
session in `error` (and the callback's error propagating), while the run
with no callback completes. -/
theorem agent_run_throwing_callback_changes_outcome :
    (Agent.run ⟨"gpt-5-mini", "", 2, some (fun _ => some "boom")⟩
        (fun _ => Except.ok ⟨[MessageContent.text "ok"], "stop", ⟨0, 0⟩⟩)
        ⟨[]⟩ ⟨"s", [], "", ⟨"gpt-5-mini", none, none⟩, SessionStatus.idle⟩
        "hi" 0).session.status = SessionStatus.error ∧
    (Agent.run ⟨"gpt-5-mini", "", 2, some (fun _ => some "boom")⟩
        (fun _ => Except.ok ⟨[MessageContent.text "ok"], "stop", ⟨0, 0⟩⟩)
        ⟨[]⟩ ⟨"s", [], "", ⟨"gpt-5-mini", none, none⟩, SessionStatus.idle⟩
        "hi" 0).outcome
      = Except.error (AgentError.callbackError "boom") ∧
    (Agent.run ⟨"gpt-5-mini", "", 2, none⟩
        (fun _ => Except.ok ⟨[MessageContent.text "ok"], "stop", ⟨0, 0⟩⟩)
        ⟨[]⟩ ⟨"s", [], "", ⟨"gpt-5-mini", none, none⟩, SessionStatus.idle⟩
        "hi" 0).session.status = SessionStatus.completed := by
  refine ⟨rfl, rfl, rfl⟩

theorem emit_eq_none_of_onEvent_none (cfg : AgentConfig)
    (hcfg : cfg.onEvent = none) (e : AgentEvent) :
    Agent.emit cfg e = none := by
  unfold Agent.emit
  rw [hcfg]

theorem emit_eq_none_of_cb_silent (cfg : AgentConfig) (cb : EventCallback)
    (hcfg : cfg.onEvent = some cb) (h : ∀ e, cb e = none) (e : AgentEvent) :
    Agent.emit cfg e = none := by
  unfold Agent.emit
  rw [hcfg]
  simp [h]

theorem emitSeq_eq_none (cfg : AgentConfig)
    (h : ∀ e, Agent.emit cfg e = none) :
    ∀ evs, Agent.emitSeq cfg evs = none := by
  intro evs
  induction evs with
  | nil => rfl
  | cons e evs ih =>
      unfold Agent.emitSeq
      rw [h e, ih]

theorem runLoop_ignores_silent_callback (cfg : AgentConfig)
    (cb : EventCallback) (h : ∀ e, cb e = none) (oracle : LLMOracle)
    (reg : ToolRegistry) (sid : String) :
    ∀ fuel msgs step nid,
      Agent.runLoop { cfg with onEvent := some cb } oracle reg sid msgs step
          nid fuel
        = Agent.runLoop { cfg with onEvent := none } oracle reg sid msgs step
          nid fuel := by
  intro fuel
  have he1 : ∀ e, Agent.emit { cfg with onEvent := some cb } e = none :=
    emit_eq_none_of_cb_silent _ cb rfl h
  have he2 : ∀ e, Agent.emit { cfg with onEvent := none } e = none :=
    emit_eq_none_of_onEvent_none _ rfl
  have hs1 := emitSeq_eq_none _ he1
  have hs2 := emitSeq_eq_none _ he2
  induction fuel with
  | zero => intro msgs step nid; rfl
  | succ fuel ih =>
    intro msgs step nid
    unfold Agent.runLoop
    simp only [he1, he2, hs1, hs2]
    by_cases hstep : step < cfg.maxSteps
    · simp only [hstep, if_true]
      cases oracle msgs with
      | error e => rfl
      | ok response =>
          simp only []
          by_cases hcalls : (contentToolCalls response.content).isEmpty
          · simp [hcalls]
          · simp [hcalls, ih]
    · simp only [hstep, if_false]

/-- C9 (amended): emissions are transparent for callbacks that return
normally: for every inference behaviour, tool set and session, running with
a never-throwing `onEvent` callback produces exactly the same final session
(transcript and status), trace and outcome as running with no callback.
(A throwing callback, by contrast, aborts the run — see the
counterexample.) -/
theorem agent_run_silent_callback_transparent (cfg : AgentConfig)
    (cb : EventCallback) (h : ∀ e, cb e = none) (oracle : LLMOracle)
    (reg : ToolRegistry) (sess : Session) (userMessage : String)
    (nid : Nat) :
    Agent.run { cfg with onEvent := some cb } oracle reg sess userMessage nid
      = Agent.run { cfg with onEvent := none } oracle reg sess userMessage
          nid := by
  have hc : ∀ e, Agent.catchEmit { cfg with onEvent := some cb } e
      = Agent.catchEmit { cfg with onEvent := none } e := by
    intro e
    unfold Agent.catchEmit
    rw [emit_eq_none_of_cb_silent _ cb rfl h,
      emit_eq_none_of_onEvent_none _ rfl]
  simp only [Agent.run,
    runLoop_ignores_silent_callback cfg cb h oracle reg sess.id, hc]

/-- Closed witness for the amended C9 with the constantly-silent callback. -/
theorem agent_run_silent_callback_transparent_witness :
    Agent.run ⟨"gpt-5-mini", "", 2, some (fun _ => none)⟩
        (fun _ => Except.ok ⟨[MessageContent.text "ok"], "stop", ⟨0, 0⟩⟩)
        ⟨[]⟩ ⟨"s", [], "", ⟨"gpt-5-mini", none, none⟩, SessionStatus.idle⟩
        "hi" 0
      = Agent.run ⟨"gpt-5-mini", "", 2, none⟩
        (fun _ => Except.ok ⟨[MessageContent.text "ok"], "stop", ⟨0, 0⟩⟩)
        ⟨[]⟩ ⟨"s", [], "", ⟨"gpt-5-mini", none, none⟩, SessionStatus.idle⟩
        "hi" 0 :=
  agent_run_silent_callback_transparent ⟨"gpt-5-mini", "", 2, none⟩
    (fun _ => none) (fun _ => rfl)
    (fun _ => Except.ok ⟨[MessageContent.text "ok"], "stop", ⟨0, 0⟩⟩)
    ⟨[]⟩ ⟨"s", [], "", ⟨"gpt-5-mini", none, none⟩, SessionStatus.idle⟩
    "hi" 0

/-! ## C6: streaming state-machine assembly -/

/-- A "body" event of one streamed step: anything except `finish`/`error`
(the per-step contract delivers a single terminal `finish`). -/
def isBodyEvent : LLMEvent → Bool
  | LLMEvent.finish _ _ => false
  | LLMEvent.error _ => false
  | _ => true

/-- Spec side: the concatenation of all `text_delta` fragments of a step. -/
def textConcat (evs : List LLMEvent) : String :=
  String.join (evs.filterMap (fun e =>
    match e with
    | LLMEvent.text_delta t => some t
    | _ => none))

/-- Spec side: the completed tool calls of a step, in `tool_call_end` order,
each with the end event's arguments payload parsed as structured data,
falling back to the raw string. -/
def endCalls (parses : String → Bool) (evs : List LLMEvent) :
    List ToolCallContent :=
  evs.filterMap (fun e =>
    match e with
    | LLMEvent.tool_call_end id name a =>
        some ⟨id, name, if parses a then ArgValue.parsed a else ArgValue.str a⟩
    | _ => none)

theorem string_join_cons (s : String) (l : List String) :
    String.join (s :: l) = s ++ String.join l := by
  induction l generalizing s with
  | nil => simp [String.join]
  | cons t l ih =>
    show String.join (s :: t :: l) = s ++ String.join (t :: l)
    have h1 : String.join (s :: t :: l) = String.join ((s ++ t) :: l) := by
      simp [String.join]
    rw [h1, ih, ih t, ← String.append_assoc]

theorem processEvents_body_then_finish (parses : String → Bool)
    (reason : String) (u : Usage) :
    ∀ evs, (∀ e ∈ evs, isBodyEvent e = true) → ∀ st : Agent.StreamState,
      ∃ bufs,
        (Agent.processEvents parses st
            (evs ++ [LLMEvent.finish reason u])).1
          = { content := st.content ++
                (if st.currentText ++ textConcat evs = "" then []
                 else [MessageContent.text (st.currentText ++ textConcat evs)]),
              toolCalls := st.toolCalls ++ endCalls parses evs,
              currentText := st.currentText ++ textConcat evs,
              toolCallBuffers := bufs } ∧
        (Agent.processEvents parses st
            (evs ++ [LLMEvent.finish reason u])).2.2 = none := by
  intro evs
  induction evs with
  | nil =>
    intro _ st
    obtain ⟨c, tc, ct, bf⟩ := st
    refine ⟨bf, ?_, ?_⟩
    · by_cases hct : ct = ""
      · subst hct
        simp [Agent.processEvents, Agent.processEvent, textConcat,
          String.join, endCalls]
      · simp [Agent.processEvents, Agent.processEvent, hct, textConcat,
          String.join, endCalls]
    · by_cases hct : ct = ""
      · subst hct
        simp [Agent.processEvents, Agent.processEvent]
      · simp [Agent.processEvents, Agent.processEvent, hct]
  | cons e evs ih =>
    intro hbody st
    have he : isBodyEvent e = true := hbody e (List.mem_cons_self e evs)
    have hrest : ∀ e ∈ evs, isBodyEvent e = true := fun e he =>
      hbody e (List.mem_cons_of_mem _ he)
    cases e with
    | finish r2 u2 => simp [isBodyEvent] at he
    | error e2 => simp [isBodyEvent] at he
    | text_delta t =>
      obtain ⟨bufs, h1, h2⟩ := ih hrest
        { st with currentText := st.currentText ++ t }
      refine ⟨bufs, ?_, ?_⟩
      · show (Agent.processEvents parses _
            ((LLMEvent.text_delta t :: evs) ++ [LLMEvent.finish reason u])).1
          = _
        rw [List.cons_append]
        simp only [Agent.processEvents, Agent.processEvent, h2]
        rw [h1]
        have ht : textConcat (LLMEvent.text_delta t :: evs)
            = t ++ textConcat evs := by
          unfold textConcat
          rw [List.filterMap_cons]
          exact string_join_cons t _
        have hc : endCalls parses (LLMEvent.text_delta t :: evs)
            = endCalls parses evs := by
          unfold endCalls
          rw [List.filterMap_cons]
        rw [ht, hc, String.append_assoc]
      · rw [List.cons_append]
        simp only [Agent.processEvents, Agent.processEvent, h2]
    | tool_call_start id name =>
      obtain ⟨bufs, h1, h2⟩ := ih hrest
        { st with toolCallBuffers :=
            mapSet st.toolCallBuffers id (id, name, "") }
      refine ⟨bufs, ?_, ?_⟩
      · rw [List.cons_append]
        simp only [Agent.processEvents, Agent.processEvent, h2]
        rw [h1]
        have ht : textConcat (LLMEvent.tool_call_start id name :: evs)
            = textConcat evs := by
          unfold textConcat
          rw [List.filterMap_cons]
        have hc : endCalls parses (LLMEvent.tool_call_start id name :: evs)
            = endCalls parses evs := by
          unfold endCalls
          rw [List.filterMap_cons]
        rw [ht, hc]
      · rw [List.cons_append]
        simp only [Agent.processEvents, Agent.processEvent, h2]
    | tool_call_delta id a =>
      cases hb : mapGet st.toolCallBuffers id with
      | some b =>
        obtain ⟨bufs, h1, h2⟩ := ih hrest
          { st with toolCallBuffers :=
              mapSet st.toolCallBuffers id (b.1, b.2.1, b.2.2 ++ a) }
        refine ⟨bufs, ?_, ?_⟩
        · rw [List.cons_append]
          simp only [Agent.processEvents, Agent.processEvent, hb, h2]
          rw [h1]
          have ht : textConcat (LLMEvent.tool_call_delta id a :: evs)
              = textConcat evs := by
            unfold textConcat
            rw [List.filterMap_cons]
          have hc : endCalls parses (LLMEvent.tool_call_delta id a :: evs)
              = endCalls parses evs := by
            unfold endCalls
            rw [List.filterMap_cons]
          rw [ht, hc]
        · rw [List.cons_append]
          simp only [Agent.processEvents, Agent.processEvent, hb, h2]
      | none =>
        obtain ⟨bufs, h1, h2⟩ := ih hrest st
        refine ⟨bufs, ?_, ?_⟩
        · rw [List.cons_append]
          simp only [Agent.processEvents, Agent.processEvent, hb, h2]
          rw [h1]
          have ht : textConcat (LLMEvent.tool_call_delta id a :: evs)
              = textConcat evs := by
            unfold textConcat
            rw [List.filterMap_cons]
          have hc : endCalls parses (LLMEvent.tool_call_delta id a :: evs)
              = endCalls parses evs := by
            unfold endCalls
            rw [List.filterMap_cons]
          rw [ht, hc]
        · rw [List.cons_append]
          simp only [Agent.processEvents, Agent.processEvent, hb, h2]
    | tool_call_end id name a =>
        obtain ⟨bufs, h1, h2⟩ := ih hrest
          { st with toolCalls := st.toolCalls ++
              [⟨id, name, if parses a then ArgValue.parsed a
                          else ArgValue.str a⟩] }
        refine ⟨bufs, ?_, ?_⟩
        · rw [List.cons_append]
          simp only [Agent.processEvents, Agent.processEvent, h2]
          rw [h1]
          have ht : textConcat (LLMEvent.tool_call_end id name a :: evs)
              = textConcat evs := by
            unfold textConcat
            rw [List.filterMap_cons]
          have hc : endCalls parses (LLMEvent.tool_call_end id name a :: evs)
              = (⟨id, name, if parses a then ArgValue.parsed a
                            else ArgValue.str a⟩ : ToolCallContent)
                :: endCalls parses evs := by
            unfold endCalls
            rw [List.filterMap_cons]
          rw [ht, hc, List.append_assoc]
          rfl
        · rw [List.cons_append]
          simp only [Agent.processEvents, Agent.processEvent, h2]

/-- C6 (amended): for every well-formed streamed step (body events followed
by a single terminal `finish`), the assembled assistant content is the
sealed text block (the concatenated `text_delta` fragments, present exactly
when non-empty) followed by the completed tool calls in `tool_call_end`
order, where each call's arguments are obtained by parsing the **end
event's own arguments payload** as structured data, falling back to the raw
string when parsing fails.  (The per-call-id buffer accumulated from
`tool_call_delta` fragments is maintained but not consulted — see the
counterexample.) -/
theorem stream_step_assembles_text_then_calls (parses : String → Bool)
    (evs : List LLMEvent) (reason : String) (u : Usage)
    (h : ∀ e ∈ evs, isBodyEvent e = true) :
    Agent.assembleContent parses (evs ++ [LLMEvent.finish reason u])
      = (if textConcat evs = "" then []
         else [MessageContent.text (textConcat evs)])
        ++ (endCalls parses evs).map ToolCallContent.toContent := by
  obtain ⟨bufs, h1, h2⟩ :=
    processEvents_body_then_finish parses reason u evs h Agent.initStream
  unfold Agent.assembleContent
  rw [h1]
  show ([] : List MessageContent) ++ _ ++ ([] ++ endCalls parses evs).map _
      = _
  have hnil : ("" : String) ++ textConcat evs = textConcat evs := by
    simp
  simp only [Agent.initStream, hnil, List.nil_append]

/-- Closed witness for the amended C6: two interleaved text fragments and
one tool call whose end payload fails to parse. -/
theorem stream_step_assembles_text_then_calls_witness :
    (∀ e ∈ [LLMEvent.text_delta "Hel",
            LLMEvent.tool_call_start "c1" "t",
            LLMEvent.tool_call_delta "c1" "argFrag",
            LLMEvent.text_delta "lo",
            LLMEvent.tool_call_end "c1" "t" "argFull"],
        isBodyEvent e = true) ∧
    Agent.assembleContent (fun _ => false)
        ([LLMEvent.text_delta "Hel",
          LLMEvent.tool_call_start "c1" "t",
          LLMEvent.tool_call_delta "c1" "argFrag",
          LLMEvent.text_delta "lo",
          LLMEvent.tool_call_end "c1" "t" "argFull"]
         ++ [LLMEvent.finish "stop" ⟨0, 0⟩])
      = (if textConcat [LLMEvent.text_delta "Hel",
            LLMEvent.tool_call_start "c1" "t",
            LLMEvent.tool_call_delta "c1" "argFrag",
            LLMEvent.text_delta "lo",
            LLMEvent.tool_call_end "c1" "t" "argFull"] = "" then []
         else [MessageContent.text (textConcat [LLMEvent.text_delta "Hel",
            LLMEvent.tool_call_start "c1" "t",
            LLMEvent.tool_call_delta "c1" "argFrag",
            LLMEvent.text_delta "lo",
            LLMEvent.tool_call_end "c1" "t" "argFull"])])
        ++ (endCalls (fun _ => false) [LLMEvent.text_delta "Hel",
            LLMEvent.tool_call_start "c1" "t",
            LLMEvent.tool_call_delta "c1" "argFrag",
            LLMEvent.text_delta "lo",
            LLMEvent.tool_call_end "c1" "t" "argFull"]).map
          ToolCallContent.toContent :=
  ⟨by decide,
   stream_step_assembles_text_then_calls (fun _ => false) _ "stop" ⟨0, 0⟩
     (by decide)⟩

/-- C6 counterexample: the resulting tool call's arguments come from the
`tool_call_end` event's own payload, not from the per-call-id buffer
accumulated from the `tool_call_delta` fragments — on a step whose deltas
accumulate `"bufferedArgs"` while the end event carries `"payloadArgs"`
(with a parse function that always fails, so the raw string is kept), the
assembled block holds `"payloadArgs"`, not the buffered string the claim
prescribes. -/
theorem stream_tool_call_args_ignore_buffer :
    Agent.assembleContent (fun _ => false)
        [LLMEvent.tool_call_start "c1" "t",
         LLMEvent.tool_call_delta "c1" "bufferedArgs",
         LLMEvent.tool_call_end "c1" "t" "payloadArgs",
         LLMEvent.finish "stop" ⟨0, 0⟩]
      = [MessageContent.toolCall "c1" "t" (ArgValue.str "payloadArgs")] ∧
    Agent.assembleContent (fun _ => false)
        [LLMEvent.tool_call_start "c1" "t",
         LLMEvent.tool_call_delta "c1" "bufferedArgs",
         LLMEvent.tool_call_end "c1" "t" "payloadArgs",
         LLMEvent.finish "stop" ⟨0, 0⟩]
      ≠ [MessageContent.toolCall "c1" "t" (ArgValue.str "bufferedArgs")] ∧
    (Agent.processEvents (fun _ => false) Agent.initStream
        [LLMEvent.tool_call_start "c1" "t",
         LLMEvent.tool_call_delta "c1" "bufferedArgs",
         LLMEvent.tool_call_end "c1" "t" "payloadArgs",
         LLMEvent.finish "stop" ⟨0, 0⟩]).1.toolCallBuffers
      = [("c1", ("c1", "t", "bufferedArgs"))] := by
  refine ⟨by decide, by decide, by decide⟩

/-! ## C5: batch / streaming end-state equivalence -/

/-- C5: for a turn whose streamed event sequence emits `text_delta` twice
then `finish` with reason `"stop"` and no tool events, while batch mode
receives the equivalent non-streaming response carrying the concatenated
text, `run` and `stream` leave the session in the same status and with last
assistant messages of equal final text content — for every session,
configuration and id seed. -/
theorem run_stream_equivalent_end_state (model sp : String)
    (maxSteps : Nat) (parses : String → Bool) (reg : ToolRegistry)
    (sess : Session) (um t1 t2 : String) (nid : Nat) :
    (Agent.run ⟨model, sp, maxSteps, none⟩
        (fun _ => Except.ok
          ⟨[MessageContent.text (t1 ++ t2)], "stop", ⟨0, 0⟩⟩)
        reg sess um nid).session.status
      = (Agent.stream ⟨model, sp, maxSteps, none⟩
          (fun _ => [LLMEvent.text_delta t1, LLMEvent.text_delta t2,
                     LLMEvent.finish "stop" ⟨0, 0⟩])
          parses reg sess um nid).session.status ∧
    (getLastAssistantMessage
        (Agent.run ⟨model, sp, maxSteps, none⟩
          (fun _ => Except.ok
            ⟨[MessageContent.text (t1 ++ t2)], "stop", ⟨0, 0⟩⟩)
          reg sess um nid).session).map getTextContent
      = (getLastAssistantMessage
          (Agent.stream ⟨model, sp, maxSteps, none⟩
            (fun _ => [LLMEvent.text_delta t1, LLMEvent.text_delta t2,
                       LLMEvent.finish "stop" ⟨0, 0⟩])
            parses reg sess um nid).session).map getTextContent := by
  cases maxSteps with
  | zero => exact ⟨rfl, rfl⟩
  | succ n =>
    by_cases hT : t1 ++ t2 = ""
    all_goals cases n with
    | zero =>
        refine ⟨?_, ?_⟩ <;>
          (simp [Agent.run, Agent.stream, Agent.runLoop, Agent.streamLoop,
            Agent.processEvents, Agent.processEvent, Agent.initStream,
            Agent.emit, Agent.emitSeq, Agent.textEvents, Agent.catchEmit,
            addUserMessage, contentToolCalls, toolCallOf,
            ToolCallContent.toContent, getLastAssistantMessage,
            getTextContent, hT] <;> rfl)
    | succ m =>
        refine ⟨?_, ?_⟩ <;>
          (simp [Agent.run, Agent.stream, Agent.runLoop, Agent.streamLoop,
            Agent.processEvents, Agent.processEvent, Agent.initStream,
            Agent.emit, Agent.emitSeq, Agent.textEvents, Agent.catchEmit,
            addUserMessage, contentToolCalls, toolCallOf,
            ToolCallContent.toContent, getLastAssistantMessage,
            getTextContent, hT] <;> rfl)

/-! ## C4: every tool call is answered exactly once -/

/-- The ids of the `tool_call` blocks of a content list, in order. -/
def contentCallIds (content : List MessageContent) : List String :=
  content.filterMap (fun c =>
    match c with
    | MessageContent.toolCall id _ _ => some id
    | _ => none)

/-- The ids of a message's `tool_call` blocks. -/
def msgCallIds (m : Message) : List String :=
  contentCallIds m.content

/-- All `tool_call` ids of a transcript, in order. -/
def callIds (msgs : List Message) : List String :=
  msgs.flatMap msgCallIds

/-- Whether a block is a `tool_result` answering call `id`. -/
def isResultFor (id : String) : MessageContent → Bool
  | MessageContent.toolResult tid _ _ => tid = id
  | _ => false

/-- The number of `tool_result` blocks answering `id` in a transcript. -/
def resultCount (msgs : List Message) (id : String) : Nat :=
  (msgs.map (fun m => m.content.countP (isResultFor id))).sum

/-- Whether a content list contains no `tool_result` block at all. -/
def hasNoResultBlock (content : List MessageContent) : Bool :=
  content.all (fun c =>
    match c with
    | MessageContent.toolResult _ _ _ => false
    | _ => true)

/-- The C4 transcript invariant: every `tool_call` block is answered by
exactly one `tool_result` block with a matching identifier appearing in a
strictly later message. -/
def answeredOnce : List Message → Prop
  | [] => True
  | m :: rest =>
      (∀ id ∈ msgCallIds m, resultCount rest id = 1) ∧ answeredOnce rest

theorem callIds_append (xs ys : List Message) :
    callIds (xs ++ ys) = callIds xs ++ callIds ys := by
  simp [callIds]

theorem resultCount_append (xs ys : List Message) (id : String) :
    resultCount (xs ++ ys) id = resultCount xs id + resultCount ys id := by
  simp [resultCount]

theorem countP_eq_zero_of_hasNoResultBlock (content : List MessageContent)
    (h : hasNoResultBlock content = true) (id : String) :
    content.countP (isResultFor id) = 0 := by
  rw [List.countP_eq_zero]
  intro c hc
  have := (List.all_eq_true.mp h) c hc
  cases c with
  | text t => simp [isResultFor]
  | toolCall i n a => simp [isResultFor]
  | toolResult tid r e => simp at this

theorem resultCount_single (m : Message) (id : String) :
    resultCount [m] id = m.content.countP (isResultFor id) := by
  simp [resultCount]

/-- Extending an answered transcript with an answered suffix that answers
none of the prefix's calls keeps it answered. -/
theorem answeredOnce_append (xs ys : List Message)
    (hx : answeredOnce xs) (hy : answeredOnce ys)
    (hdisj : ∀ id ∈ callIds xs, resultCount ys id = 0) :
    answeredOnce (xs ++ ys) := by
  induction xs with
  | nil => exact hy
  | cons m xs ih =>
    obtain ⟨hm, hxs⟩ := hx
    constructor
    · intro id hid
      show resultCount (xs ++ ys) id = 1
      rw [resultCount_append]
      have h0 : resultCount ys id = 0 := by
        apply hdisj
        show id ∈ callIds (m :: xs)
        have : callIds (m :: xs) = msgCallIds m ++ callIds xs := by
          simp [callIds]
        rw [this]
        exact List.mem_append_left _ hid
      rw [hm id hid, h0]
    · apply ih hxs
      intro id hid
      apply hdisj
      have : callIds (m :: xs) = msgCallIds m ++ callIds xs := by
        simp [callIds]
      rw [this]
      exact List.mem_append_right _ hid

theorem contentCallIds_eq_map_toolCalls (content : List MessageContent) :
    contentCallIds content
      = (contentToolCalls content).map (fun c => c.id) := by
  induction content with
  | nil => rfl
  | cons c content ih =>
    cases c with
    | text t => simpa [contentCallIds, contentToolCalls, toolCallOf,
        List.filterMap_cons] using ih
    | toolCall i n a => simpa [contentCallIds, contentToolCalls, toolCallOf,
        List.filterMap_cons] using ih
    | toolResult tid r e => simpa [contentCallIds, contentToolCalls,
        toolCallOf, List.filterMap_cons] using ih

theorem executeAll_map_toolCallId (reg : ToolRegistry)
    (opts : ExecutorOptions) (calls : List ToolCallContent)
    (ctx : ExecutionContext) :
    (ToolExecutor.executeAll reg opts calls ctx).map (fun r => r.toolCallId)
      = calls.map (fun c => c.id) := by
  unfold ToolExecutor.executeAll
  rw [List.map_map]
  apply List.map_congr_left
  intro call _
  exact execute_toolCallId reg opts call ctx

theorem countP_results_toContent (results : List ToolResultContent)
    (id : String) :
    (results.map ToolResultContent.toContent).countP (isResultFor id)
      = (results.map (fun r => r.toolCallId)).count id := by
  induction results with
  | nil => rfl
  | cons r results ih =>
    rw [List.map_cons, List.countP_cons, List.map_cons, List.count_cons, ih]
    congr 1
    try simp [ToolResultContent.toContent, isResultFor, eq_comm]

theorem contentCallIds_results (results : List ToolResultContent) :
    contentCallIds (results.map ToolResultContent.toContent) = [] := by
  induction results with
  | nil => rfl
  | cons r results ih =>
    rw [List.map_cons]
    simpa [contentCallIds, ToolResultContent.toContent,
      List.filterMap_cons] using ih

/-- Loop invariant for C4: starting from an answered transcript whose call
ids are globally distinct, with an oracle that issues duplicate-free call
ids fresh for the transcript it is shown and no `tool_result` blocks in
assistant content, every transcript passed to an inference call is
answered, and whenever the loop exits normally the final transcript is
answered with still-distinct call ids. -/
theorem runLoop_answeredOnce (cfg : AgentConfig) (oracle : LLMOracle)
    (reg : ToolRegistry) (sid : String)
    (hfresh : ∀ msgs out, oracle msgs = Except.ok out →
      (contentCallIds out.content).Nodup ∧
      (∀ id ∈ contentCallIds out.content, id ∉ callIds msgs) ∧
      hasNoResultBlock out.content = true) :
    ∀ fuel msgs step nid,
      answeredOnce msgs → (callIds msgs).Nodup →
      (∀ t ∈ (Agent.runLoop cfg oracle reg sid msgs step nid fuel).trace,
        answeredOnce t) ∧
      (∀ s, (Agent.runLoop cfg oracle reg sid msgs step nid fuel).exit
          = Agent.LoopExit.finished s →
        answeredOnce
          (Agent.runLoop cfg oracle reg sid msgs step nid fuel).messages ∧
        (callIds
            (Agent.runLoop cfg oracle reg sid msgs step nid
              fuel).messages).Nodup) := by
  intro fuel
  induction fuel with
  | zero =>
    intro msgs step nid hans hnd
    exact ⟨fun t ht => by simp [Agent.runLoop] at ht, fun s _ => ⟨hans, hnd⟩⟩
  | succ fuel ih =>
    intro msgs step nid hans hnd
    by_cases hstep : step < cfg.maxSteps
    · cases hemit : Agent.emit cfg (AgentEvent.step (step+1) cfg.maxSteps) with
      | some e =>
        have hred : Agent.runLoop cfg oracle reg sid msgs step nid (fuel+1)
            = ⟨msgs, nid, [], Agent.LoopExit.threw e⟩ := by
          simp [Agent.runLoop, hstep, hemit]
        rw [hred]
        exact ⟨fun t ht => by simp at ht, fun s hs => by simp at hs⟩
      | none =>
      cases horacle : oracle msgs with
      | error e2 =>
        have hred : Agent.runLoop cfg oracle reg sid msgs step nid (fuel+1)
            = ⟨msgs, nid, [msgs], Agent.LoopExit.threw e2⟩ := by
          simp [Agent.runLoop, hstep, hemit, horacle]
        rw [hred]
        refine ⟨fun t ht => ?_, fun s hs => by simp at hs⟩
        simp at ht
        subst ht
        exact hans
      | ok response =>
      obtain ⟨hnodupIds, hfreshIds, hnores⟩ := hfresh msgs response horacle
      have hids := contentCallIds_eq_map_toolCalls response.content
      cases hseq : Agent.emitSeq cfg
          (AgentEvent.message_start Role.assistant ::
           Agent.textEvents response.content) with
      | some e =>
        have hred : Agent.runLoop cfg oracle reg sid msgs step nid (fuel+1)
            = ⟨msgs ++ [⟨mkId nid, Role.assistant, response.content⟩],
               nid+1, [msgs], Agent.LoopExit.threw e⟩ := by
          simp [Agent.runLoop, hstep, hemit, horacle, hseq]
        rw [hred]
        refine ⟨fun t ht => ?_, fun s hs => by simp at hs⟩
        simp at ht
        subst ht
        exact hans
      | none =>
      cases hcalls : (contentToolCalls response.content).isEmpty with
      | true =>
        have hcnil : contentToolCalls response.content = [] :=
          List.isEmpty_iff.mp hcalls
        have hidsnil : contentCallIds response.content = [] := by
          rw [hids, hcnil]
          rfl
        have hansBreak : answeredOnce (msgs ++
            [⟨mkId nid, Role.assistant, response.content⟩]) := by
          apply answeredOnce_append msgs _ hans
          · refine ⟨?_, trivial⟩
            intro id hid
            exfalso
            have hmem : id ∈ contentCallIds response.content := hid
            rw [hidsnil] at hmem
            simp at hmem
          · intro id _
            rw [resultCount_single]
            exact countP_eq_zero_of_hasNoResultBlock _ hnores id
        have hndBreak : (callIds (msgs ++
            [⟨mkId nid, Role.assistant, response.content⟩])).Nodup := by
          rw [callIds_append]
          have hz : callIds
              [(⟨mkId nid, Role.assistant, response.content⟩ : Message)]
              = [] := by
            simp [callIds, msgCallIds, hidsnil]
          rw [hz, List.append_nil]
          exact hnd
        cases hend : Agent.emit cfg
            (AgentEvent.message_end response.finishReason) with
        | some e =>
          have hred : Agent.runLoop cfg oracle reg sid msgs step nid (fuel+1)
              = ⟨msgs ++ [⟨mkId nid, Role.assistant, response.content⟩],
                 nid+1, [msgs], Agent.LoopExit.threw e⟩ := by
            simp [Agent.runLoop, hstep, hemit, horacle, hseq, hcalls, hend]
          rw [hred]
          refine ⟨fun t ht => ?_, fun s hs => by simp at hs⟩
          simp at ht
          subst ht
          exact hans
        | none =>
          have hred : Agent.runLoop cfg oracle reg sid msgs step nid (fuel+1)
              = ⟨msgs ++ [⟨mkId nid, Role.assistant, response.content⟩],
                 nid+1, [msgs], Agent.LoopExit.finished (step+1)⟩ := by
            simp [Agent.runLoop, hstep, hemit, horacle, hseq, hcalls, hend]
          rw [hred]
          refine ⟨fun t ht => ?_, fun s _ => ⟨hansBreak, hndBreak⟩⟩
          simp at ht
          subst ht
          exact hans
      | false =>
      cases hseq2 : Agent.emitSeq cfg
          ((contentToolCalls response.content).map (fun c =>
            AgentEvent.tool_call c.id c.name c.arguments)) with
      | some e =>
        have hred : Agent.runLoop cfg oracle reg sid msgs step nid (fuel+1)
            = ⟨msgs ++ [⟨mkId nid, Role.assistant, response.content⟩],
               nid+1, [msgs], Agent.LoopExit.threw e⟩ := by
          simp [Agent.runLoop, hstep, hemit, horacle, hseq, hcalls, hseq2]
        rw [hred]
        refine ⟨fun t ht => ?_, fun s hs => by simp at hs⟩
        simp at ht
        subst ht
        exact hans
      | none =>
      cases hseq3 : Agent.emitSeq cfg
          (AgentEvent.message_start Role.tool ::
           (Agent.toolResultEvents (contentToolCalls response.content)
             (ToolExecutor.executeAll reg {}
               (contentToolCalls response.content) ⟨sid, mkId nid⟩) ++
            [AgentEvent.message_end "tool_results"])) with
      | some e =>
        have hred : Agent.runLoop cfg oracle reg sid msgs step nid (fuel+1)
            = ⟨msgs ++ [⟨mkId nid, Role.assistant, response.content⟩,
                 ⟨mkId (nid+1), Role.tool,
                  (ToolExecutor.executeAll reg {}
                    (contentToolCalls response.content)
                    ⟨sid, mkId nid⟩).map ToolResultContent.toContent⟩],
               nid+2, [msgs], Agent.LoopExit.threw e⟩ := by
          simp [Agent.runLoop, hstep, hemit, horacle, hseq, hcalls, hseq2,
            hseq3]
        rw [hred]
        refine ⟨fun t ht => ?_, fun s hs => by simp at hs⟩
        simp at ht
        subst ht
        exact hans
      | none =>
        have hred : Agent.runLoop cfg oracle reg sid msgs step nid (fuel+1)
            = ⟨(Agent.runLoop cfg oracle reg sid
                  (msgs ++ [⟨mkId nid, Role.assistant, response.content⟩,
                    ⟨mkId (nid+1), Role.tool,
                     (ToolExecutor.executeAll reg {}
                       (contentToolCalls response.content)
                       ⟨sid, mkId nid⟩).map ToolResultContent.toContent⟩])
                  (step+1) (nid+2) fuel).messages,
               (Agent.runLoop cfg oracle reg sid
                  (msgs ++ [⟨mkId nid, Role.assistant, response.content⟩,
                    ⟨mkId (nid+1), Role.tool,
                     (ToolExecutor.executeAll reg {}
                       (contentToolCalls response.content)
                       ⟨sid, mkId nid⟩).map ToolResultContent.toContent⟩])
                  (step+1) (nid+2) fuel).nextId,
               msgs :: (Agent.runLoop cfg oracle reg sid
                  (msgs ++ [⟨mkId nid, Role.assistant, response.content⟩,
                    ⟨mkId (nid+1), Role.tool,
                     (ToolExecutor.executeAll reg {}
                       (contentToolCalls response.content)
                       ⟨sid, mkId nid⟩).map ToolResultContent.toContent⟩])
                  (step+1) (nid+2) fuel).trace,
               (Agent.runLoop cfg oracle reg sid
                  (msgs ++ [⟨mkId nid, Role.assistant, response.content⟩,
                    ⟨mkId (nid+1), Role.tool,
                     (ToolExecutor.executeAll reg {}
                       (contentToolCalls response.content)
                       ⟨sid, mkId nid⟩).map ToolResultContent.toContent⟩])
                  (step+1) (nid+2) fuel).exit⟩ := by
          simp [Agent.runLoop, hstep, hemit, horacle, hseq, hcalls, hseq2,
            hseq3]
        have hresIds : (ToolExecutor.executeAll reg {}
              (contentToolCalls response.content)
              ⟨sid, mkId nid⟩).map (fun r => r.toolCallId)
            = (contentToolCalls response.content).map (fun c => c.id) :=
          executeAll_map_toolCallId _ _ _ _
        have hansNext : answeredOnce (msgs ++
            [⟨mkId nid, Role.assistant, response.content⟩,
             ⟨mkId (nid+1), Role.tool,
              (ToolExecutor.executeAll reg {}
                (contentToolCalls response.content)
                ⟨sid, mkId nid⟩).map ToolResultContent.toContent⟩]) := by
          apply answeredOnce_append msgs _ hans
          · refine ⟨?_, ?_, trivial⟩
            · intro id hid
              have hmem : id ∈ contentCallIds response.content := hid
              show resultCount
                [(⟨mkId (nid+1), Role.tool,
                  (ToolExecutor.executeAll reg {}
                    (contentToolCalls response.content)
                    ⟨sid, mkId nid⟩).map
                    ToolResultContent.toContent⟩ : Message)] id = 1
              rw [resultCount_single]
              show ((ToolExecutor.executeAll reg {}
                  (contentToolCalls response.content)
                  ⟨sid, mkId nid⟩).map
                  ToolResultContent.toContent).countP (isResultFor id) = 1
              rw [countP_results_toContent, hresIds, ← hids]
              exact List.count_eq_one_of_mem hnodupIds hmem
            · intro id hid
              exfalso
              have hmem : id ∈ contentCallIds
                  ((ToolExecutor.executeAll reg {}
                    (contentToolCalls response.content)
                    ⟨sid, mkId nid⟩).map
                    ToolResultContent.toContent) := hid
              rw [contentCallIds_results] at hmem
              simp at hmem
          · intro id hid
            have h1 : resultCount
                [(⟨mkId nid, Role.assistant, response.content⟩ : Message),
                 ⟨mkId (nid+1), Role.tool,
                  (ToolExecutor.executeAll reg {}
                    (contentToolCalls response.content)
                    ⟨sid, mkId nid⟩).map ToolResultContent.toContent⟩] id
                = response.content.countP (isResultFor id) +
                  ((ToolExecutor.executeAll reg {}
                    (contentToolCalls response.content)
                    ⟨sid, mkId nid⟩).map
                    ToolResultContent.toContent).countP (isResultFor id) := by
              simp [resultCount]
            rw [h1, countP_eq_zero_of_hasNoResultBlock _ hnores id,
              countP_results_toContent, hresIds, ← hids]
            have hnotmem : id ∉ contentCallIds response.content := by
              intro hidin
              exact hfreshIds id hidin hid
            rw [List.count_eq_zero_of_not_mem hnotmem]
        have hndNext : (callIds (msgs ++
            [⟨mkId nid, Role.assistant, response.content⟩,
             ⟨mkId (nid+1), Role.tool,
              (ToolExecutor.executeAll reg {}
                (contentToolCalls response.content)
                ⟨sid, mkId nid⟩).map
                ToolResultContent.toContent⟩])).Nodup := by
          rw [callIds_append]
          have h2 : callIds
              [(⟨mkId nid, Role.assistant, response.content⟩ : Message),
               ⟨mkId (nid+1), Role.tool,
                (ToolExecutor.executeAll reg {}
                  (contentToolCalls response.content)
                  ⟨sid, mkId nid⟩).map ToolResultContent.toContent⟩]
              = contentCallIds response.content := by
            simp [callIds, msgCallIds, contentCallIds_results]
          rw [h2]
          apply List.Nodup.append hnd hnodupIds
          rw [List.disjoint_right]
          intro id hid
          exact hfreshIds id hid
        obtain ⟨iht, ihf⟩ := ih (msgs ++
            [⟨mkId nid, Role.assistant, response.content⟩,
             ⟨mkId (nid+1), Role.tool,
              (ToolExecutor.executeAll reg {}
                (contentToolCalls response.content)
                ⟨sid, mkId nid⟩).map ToolResultContent.toContent⟩])
            (step+1) (nid+2) hansNext hndNext
        rw [hred]
        refine ⟨fun t ht => ?_, fun s hs => ihf s hs⟩
        simp only [List.mem_cons] at ht
        rcases ht with ht | ht
        · subst ht
          exact hans
        · exact iht t ht
    · have hred : Agent.runLoop cfg oracle reg sid msgs step nid (fuel+1)
          = ⟨msgs, nid, [], Agent.LoopExit.finished step⟩ := by
        simp [Agent.runLoop, hstep]
      rw [hred]
      exact ⟨fun t ht => by simp at ht, fun s _ => ⟨hans, hnd⟩⟩

/-- C4: on every successful `run` — over a session whose transcript already
satisfies the §3 invariant, with inference responses whose tool-call ids are
duplicate-free, fresh for the transcript they answer, and free of
`tool_result` blocks — every `tool_call` block of the final transcript has
exactly one matching `tool_result` block in a later message, and every
transcript handed to an inference call (each step's tool message having
been appended before the next call) satisfies the same property. -/
theorem agent_run_tool_calls_answered_exactly_once (cfg : AgentConfig)
    (oracle : LLMOracle) (reg : ToolRegistry) (sess : Session)
    (userMessage : String) (nid : Nat) (ms : List Message)
    (hfresh : ∀ msgs out, oracle msgs = Except.ok out →
      (contentCallIds out.content).Nodup ∧
      (∀ id ∈ contentCallIds out.content, id ∉ callIds msgs) ∧
      hasNoResultBlock out.content = true)
    (hinit : answeredOnce sess.messages)
    (hinitnd : (callIds sess.messages).Nodup)
    (hok : (Agent.run cfg oracle reg sess userMessage nid).outcome
        = Except.ok ms) :
    answeredOnce
      (Agent.run cfg oracle reg sess userMessage nid).session.messages ∧
    (Agent.run cfg oracle reg sess userMessage nid).session.messages = ms ∧
    ∀ t ∈ (Agent.run cfg oracle reg sess userMessage nid).trace,
      answeredOnce t := by
  have hans0 : answeredOnce (addUserMessage sess.messages userMessage nid) := by
    apply answeredOnce_append sess.messages _ hinit
    · refine ⟨?_, trivial⟩
      intro id hid
      exfalso
      simp [msgCallIds, contentCallIds] at hid
    · intro id _
      rw [resultCount_single]
      exact countP_eq_zero_of_hasNoResultBlock
        [MessageContent.text userMessage] rfl id
  have hnd0 : (callIds (addUserMessage sess.messages userMessage nid)).Nodup := by
    unfold addUserMessage
    rw [callIds_append]
    have hz : callIds
        [(⟨mkId nid, Role.user, [MessageContent.text userMessage]⟩ :
            Message)] = [] := by
      simp [callIds, msgCallIds, contentCallIds]
    rw [hz, List.append_nil]
    exact hinitnd
  obtain ⟨htr, hfin⟩ := runLoop_answeredOnce cfg oracle reg sess.id hfresh
    cfg.maxSteps (addUserMessage sess.messages userMessage nid) 0 (nid+1)
    hans0 hnd0
  cases hexit : (Agent.runLoop cfg oracle reg sess.id
      (addUserMessage sess.messages userMessage nid) 0 (nid+1)
      cfg.maxSteps).exit with
  | threw e =>
    exfalso
    have hbad : (Agent.run cfg oracle reg sess userMessage nid).outcome
        = Except.error (Agent.catchEmit cfg e) := by
      simp [Agent.run, hexit]
    rw [hbad] at hok
    simp at hok
  | finished s =>
    by_cases hms : cfg.maxSteps ≤ s
    · exfalso
      have hbad : (Agent.run cfg oracle reg sess userMessage nid).outcome
          = Except.error (Agent.catchEmit cfg
              (AgentError.maxStepsExceeded cfg.maxSteps)) := by
        simp [Agent.run, hexit, hms]
      rw [hbad] at hok
      simp at hok
    · have hred : Agent.run cfg oracle reg sess userMessage nid
          = { session := { sess with
                messages := (Agent.runLoop cfg oracle reg sess.id
                  (addUserMessage sess.messages userMessage nid) 0 (nid+1)
                  cfg.maxSteps).messages
                status := SessionStatus.completed },
              trace := (Agent.runLoop cfg oracle reg sess.id
                (addUserMessage sess.messages userMessage nid) 0 (nid+1)
                cfg.maxSteps).trace,
              outcome := Except.ok ((Agent.runLoop cfg oracle reg sess.id
                (addUserMessage sess.messages userMessage nid) 0 (nid+1)
                cfg.maxSteps).messages) } := by
        simp [Agent.run, hexit, hms]
      rw [hred] at hok ⊢
      obtain ⟨hansF, hndF⟩ := hfin s hexit
      have hmseq : (Agent.runLoop cfg oracle reg sess.id
          (addUserMessage sess.messages userMessage nid) 0 (nid+1)
          cfg.maxSteps).messages = ms := by
        injection hok
      exact ⟨by simpa using hansF, by simpa using hmseq, by simpa using htr⟩

/-- Closed witness for C4: a fresh session, one tool-call-free response. -/
theorem agent_run_tool_calls_answered_exactly_once_witness :
    answeredOnce (Agent.run ⟨"m", "", 2, none⟩
        (fun _ => Except.ok ⟨[MessageContent.text "done"], "stop", ⟨0, 0⟩⟩)
        ⟨[]⟩ ⟨"s", [], "", ⟨"m", none, none⟩, SessionStatus.idle⟩
        "hi" 0).session.messages ∧
    (Agent.run ⟨"m", "", 2, none⟩
        (fun _ => Except.ok ⟨[MessageContent.text "done"], "stop", ⟨0, 0⟩⟩)
        ⟨[]⟩ ⟨"s", [], "", ⟨"m", none, none⟩, SessionStatus.idle⟩
        "hi" 0).session.messages
      = [⟨"id0", Role.user, [MessageContent.text "hi"]⟩,
         ⟨"id1", Role.assistant, [MessageContent.text "done"]⟩] ∧
    ∀ t ∈ (Agent.run ⟨"m", "", 2, none⟩
        (fun _ => Except.ok ⟨[MessageContent.text "done"], "stop", ⟨0, 0⟩⟩)
        ⟨[]⟩ ⟨"s", [], "", ⟨"m", none, none⟩, SessionStatus.idle⟩
        "hi" 0).trace, answeredOnce t :=
  agent_run_tool_calls_answered_exactly_once ⟨"m", "", 2, none⟩
    (fun _ => Except.ok ⟨[MessageContent.text "done"], "stop", ⟨0, 0⟩⟩)
    ⟨[]⟩ ⟨"s", [], "", ⟨"m", none, none⟩, SessionStatus.idle⟩ "hi" 0
    [⟨"id0", Role.user, [MessageContent.text "hi"]⟩,
     ⟨"id1", Role.assistant, [MessageContent.text "done"]⟩]
    (fun msgs out h => by
      have hout : out
          = ⟨[MessageContent.text "done"], "stop", ⟨0, 0⟩⟩ := by
        injection h with h2
        exact h2.symm
      subst hout
      refine ⟨by decide, ?_, by decide⟩
      intro id hid
      simp [contentCallIds] at hid)
    trivial
    (by simp [callIds])
    rfl
